import Mathlib

/-!
Verification of the exhaustive-vertex linear-programming solver from the
optimization portfolio (`LP_exhaustive_vs_simplex_fixed.qmd`).

The Python source is embedded shallowly over exact rationals: numpy arrays
become `List ℚ` / `List (List ℚ)`, `np.linalg.solve` becomes exact Gaussian
elimination returning `none` on a singular (or non-square) system, Python
exceptions become `Except String`, and the broad `try/except` around the
per-combination solve-and-check block maps every internal failure to a skipped
combination.  The numeric tolerances `1e-14` (snap-to-zero) and `1e-10`
(feasibility slack) are carried as exact rationals.
-/

namespace LPPort

/-- A numpy 1-D array of floats, idealized over ℚ. -/
abbrev Vec := List ℚ

/-- A numpy 2-D array (list of rows). -/
abbrev Mat := List (List ℚ)

/-- The snap-to-zero tolerance `1e-14` from `x[(np.abs(x) < 1e-14)] = 0`. -/
def tolSnap : ℚ := 1 / 10 ^ 14

/-- The feasibility slack `1e-10` from `np.all((A @ x) <= (b + 1e-10))`. -/
def tolFeas : ℚ := 1 / 10 ^ 10

/-- Dot product of two equal-length vectors (the arithmetic core of `np.dot`). -/
def dotQ (u v : Vec) : ℚ := (List.zipWith (· * ·) u v).sum

/-- `np.dot` on 1-D arrays: raises `ValueError` when the shapes disagree. -/
def npDot (u v : Vec) : Except String ℚ :=
  if u.length = v.length then Except.ok (dotQ u v)
  else Except.error "ValueError: shapes not aligned"

/-- Matrix–vector product `A @ x` (row lengths match `x` in every use site). -/
def matVec (A : Mat) (x : Vec) : Vec := A.map (fun row => dotQ row x)

/-- `np.eye n`: the n×n identity matrix. -/
def eyeQ (n : ℕ) : Mat :=
  (List.range n).map (fun i => (List.range n).map (fun j => if j = i then 1 else 0))

/-- `np.zeros n`. -/
def zerosQ (n : ℕ) : Vec := List.replicate n 0

/-- `np.shape(A)[0]`: number of rows. -/
def shape0 (A : Mat) : ℕ := A.length

/-- `np.shape(A)[1]`: number of columns (numpy arrays are rectangular). -/
def shape1 (A : Mat) : ℕ := (A.headD []).length

/-- `A_stacked = np.vstack((A, np.eye(n)))`. -/
def stackA (A : Mat) (n : ℕ) : Mat := A ++ eyeQ n

/-- `b_stacked = np.hstack((b, np.zeros(n)))`. -/
def stackB (b : Vec) (n : ℕ) : Vec := b ++ zerosQ n

/-- `itertools.combinations l k`: all k-element subsequences of `l`, in the
lexicographic order itertools produces. -/
def combinations : ℕ → List α → List (List α)
  | 0, _ => [[]]
  | _ + 1, [] => []
  | k + 1, x :: xs => (combinations k xs).map (x :: ·) ++ combinations (k + 1) xs

/-- `row_index_combinations = itertools.combinations(range(m + n), n)`. -/
def rowIndexCombinations (m n : ℕ) : List (List ℕ) := combinations n (List.range (m + n))

/-- `mapM` for `Option`, written out as the plain recursion it computes. -/
def mapOption (f : α → Option β) : List α → Option (List β)
  | [] => some []
  | a :: l =>
    match f a with
    | none => none
    | some b =>
      match mapOption f l with
      | none => none
      | some bs => some (b :: bs)

/-- `mapM` for `Except`, written out as the plain recursion it computes: the
first raised exception propagates, as in a Python `for` loop. -/
def mapExcept (f : α → Except String β) : List α → Except String (List β)
  | [] => Except.ok []
  | a :: l =>
    match f a with
    | Except.error e => Except.error e
    | Except.ok b =>
      match mapExcept f l with
      | Except.error e => Except.error e
      | Except.ok bs => Except.ok (b :: bs)

/-- numpy fancy indexing `M[list(row_combo), :]`: selects the rows at the given
indices, raising `IndexError` (here `none`) when an index is out of bounds. -/
def selectRows (M : Mat) (idx : List ℕ) : Option Mat :=
  mapOption (fun i => M.get? i) idx

/-- numpy fancy indexing `v[list(row_combo)]`. -/
def selectVec (v : Vec) (idx : List ℕ) : Option Vec :=
  mapOption (fun i => v.get? i) idx

/-- Partial pivoting: extract the first row whose leading coefficient is
nonzero, keeping the remaining rows in order. -/
def pickPivot : List (Vec × ℚ) → Option ((Vec × ℚ) × List (Vec × ℚ))
  | [] => none
  | r :: rs =>
    if r.1.headD 0 ≠ 0 then some (r, rs)
    else
      match pickPivot rs with
      | none => none
      | some (p, rest) => some (p, r :: rest)

/-- One elimination step: subtract the multiple of the pivot row that clears
the leading coefficient of `r`, then drop the leading column. -/
def elimRow (p r : Vec × ℚ) : Vec × ℚ :=
  ((List.zipWith (fun a c => a - r.1.headD 0 / p.1.headD 0 * c) r.1.tail p.1.tail),
    r.2 - r.1.headD 0 / p.1.headD 0 * p.2)

/-- Exact Gaussian elimination with back substitution on an augmented system of
`k` unknowns; `none` exactly when no nonzero pivot exists at some stage
(a singular system). -/
def gaussSolve : ℕ → List (Vec × ℚ) → Option Vec
  | 0, _ => some []
  | k + 1, rows =>
    match pickPivot rows with
    | none => none
    | some (p, rest) =>
      match gaussSolve k (rest.map (elimRow p)) with
      | none => none
      | some xs => some ((p.2 - dotQ p.1.tail xs) / p.1.headD 0 :: xs)

/-- `np.linalg.solve M v`, idealized over ℚ: `none` when the system is not
square or is singular (`numpy.linalg.LinAlgError`, caught by the source's
`except` block at every call site). -/
def solveLin (M : Mat) (v : Vec) : Option Vec :=
  if (M.all fun r => r.length == M.length) && (v.length == M.length) then
    gaussSolve M.length (M.zip v)
  else none

/-- `x[(np.abs(x) < 1e-14)] = 0`: snap small coordinates to exact zero. -/
def snapZero (x : Vec) : Vec := x.map (fun xi => if |xi| < tolSnap then 0 else xi)

/-- `np.all(u <= w)` with numpy shape-(k)-vs-shape-(l) broadcasting: equal
lengths compare pointwise, a length-1 operand broadcasts, and any other
length mismatch raises `ValueError`. -/
def npAllLe (u w : Vec) : Except String Bool :=
  if u.length = w.length then
    Except.ok ((List.zipWith (fun a c => decide (a ≤ c)) u w).all id)
  else if u.length = 1 then
    Except.ok (w.all fun c => decide (u.headD 0 ≤ c))
  else if w.length = 1 then
    Except.ok (u.all fun a => decide (a ≤ w.headD 0))
  else
    Except.error "ValueError: operands could not be broadcast together"

/-- `np.all(x >= 0) and np.all((A @ x) <= (b + 1e-10))`, with Python's
short-circuit `and`: the second test (which may raise a broadcast error) is
evaluated only when the first succeeds. -/
def feasCheck (A : Mat) (b : Vec) (x : Vec) : Except String Bool :=
  if x.all fun xi => decide (0 ≤ xi) then
    npAllLe (matVec A x) (b.map (· + tolFeas))
  else Except.ok false

/-- The body of the source's `try:` block for one row combination: solve the
n×n subsystem, snap small coordinates to zero, and keep the point only when the
feasibility check returns true.  Every exception raised inside — singular
matrix, broadcast mismatch — is caught by the bare `except:` and yields `none`. -/
def tryBlock (Acon : Mat) (bcon : Vec) (A : Mat) (b : Vec) (n : ℕ) : Option Vec :=
  match solveLin (Acon.map (List.take n)) bcon with
  | none => none
  | some x0 =>
    match feasCheck A b (snapZero x0) with
    | Except.error _ => none
    | Except.ok true => some (snapZero x0)
    | Except.ok false => none

/-- One iteration of the enumeration loop.  The two fancy-indexing selections
sit *outside* the `try:` block in the source, so an out-of-range index there
propagates as an uncaught `IndexError`. -/
def processCombo (Astk : Mat) (bstk : Vec) (A : Mat) (b : Vec) (n : ℕ)
    (combo : List ℕ) : Except String (Option Vec) :=
  match selectRows Astk combo with
  | none => Except.error "IndexError: index out of bounds"
  | some Acon =>
    match selectVec bstk combo with
    | none => Except.error "IndexError: index out of bounds"
    | some bcon => Except.ok (tryBlock Acon bcon A b n)

/-- The enumeration loop of `get_vertices`: process every row combination in
order, collecting the surviving feasible vertices. -/
def enumerateCombos (Astk : Mat) (bstk : Vec) (A : Mat) (b : Vec) (n : ℕ)
    (combos : List (List ℕ)) : Except String (List Vec) :=
  match mapExcept (processCombo Astk bstk A b n) combos with
  | Except.error e => Except.error e
  | Except.ok results => Except.ok (results.filterMap id)

/-- `get_vertices(A, b)` from the source: stack the identity under `A` and
zeros after `b`, enumerate all `C(m+n, n)` combinations of `n` of the `m+n`
constraint rows, and return the feasible intersection points. -/
def get_vertices (A : Mat) (b : Vec) : Except String (List Vec) :=
  enumerateCombos (stackA A (shape1 A)) (stackB b (shape1 A)) A b (shape1 A)
    (rowIndexCombinations (shape0 A) (shape1 A))

/-- `-c`. -/
def negVec (c : Vec) : Vec := c.map (fun t => -t)

/-- `np.min` on a 1-D array: raises `ValueError` on an empty array. -/
def npMin (l : List ℚ) : Except String ℚ :=
  match l with
  | [] =>
    Except.error
      "ValueError: zero-size array to reduction operation minimum which has no identity"
  | x :: xs => Except.ok (xs.foldl min x)

/-- `LP_exhaustive_search(A, b, c)` from the source: collect the feasible
vertices, evaluate `np.dot(-c, vertex)` on each, and return `np.min` of the
resulting list. -/
def LP_exhaustive_search (A : Mat) (b : Vec) (c : Vec) : Except String ℚ :=
  match get_vertices A b with
  | Except.error e => Except.error e
  | Except.ok feasible_vertices =>
    match mapExcept (fun vertex => npDot (negVec c) vertex) feasible_vertices with
    | Except.error e => Except.error e
    | Except.ok objective_values => npMin objective_values

/-- `Except.isOk`, spelled out. -/
def isOkE (e : Except String α) : Bool :=
  match e with
  | Except.ok _ => true
  | Except.error _ => false

/-- Modelled from the spec: the Reference Solver Adapter (`LP_simplex`) wraps
the external library simplex solver, which is not part of this repository.
Per §4.3 its contract is to return the optimal value of
minimize `-c·x` subject to `A·x ≤ b`, `x ≥ 0`; `IsOptimalValue A b c v` states
that `v` is that optimal value. -/
def IsOptimalValue (A : Mat) (b : Vec) (c : Vec) (v : ℚ) : Prop :=
  (∃ x : Vec, x.length = shape1 A ∧ (∀ xi ∈ x, 0 ≤ xi) ∧
      List.Forall₂ (· ≤ ·) (matVec A x) b ∧ dotQ (negVec c) x = v) ∧
  (∀ x : Vec, x.length = shape1 A → (∀ xi ∈ x, 0 ≤ xi) →
      List.Forall₂ (· ≤ ·) (matVec A x) b → v ≤ dotQ (negVec c) x)

instance {ε α : Type} [DecidableEq ε] [DecidableEq α] : DecidableEq (Except ε α) :=
  fun a b =>
    match a, b with
    | Except.error e, Except.error f =>
      if h : e = f then isTrue (by rw [h])
      else isFalse (by intro hh; injection hh; exact h (by assumption))
    | Except.error _, Except.ok _ => isFalse (by intro h; exact Except.noConfusion h)
    | Except.ok _, Except.error _ => isFalse (by intro h; exact Except.noConfusion h)
    | Except.ok x, Except.ok y =>
      if h : x = y then isTrue (by rw [h])
      else isFalse (by intro hh; injection hh; exact h (by assumption))

/-! ## A store-passing model of the numpy arrays

The source's arrays are mutable heap objects; the only in-place write is the
snap-to-zero assignment `x[(np.abs(x) < 1e-14)] = 0`.  To state the frame
property we model the heap explicitly: array objects live at natural-number
references, `np.vstack`/`np.hstack`/`np.linalg.solve` allocate fresh
references, and the snap assignment writes back to the reference of the
freshly solved `x`.  References below the allocation watermark `k0` belong to
the caller (in particular the inputs `A`, `b`, `c`). -/

inductive PyObj
  | mat (M : Mat)
  | vec (v : Vec)
deriving DecidableEq

abbrev Heap := ℕ → Option PyObj

/-- Write object `o` at reference `t`. -/
def hset (h : Heap) (t : ℕ) (o : PyObj) : Heap :=
  fun r => if r = t then some o else h r

def asMat : Option PyObj → Option Mat
  | some (PyObj.mat M) => some M
  | _ => none

def asVec : Option PyObj → Option Vec
  | some (PyObj.vec v) => some v
  | _ => none

/-- The running state of the enumeration loop: the heap, the next fresh
reference, the references of the collected feasible vertices, and the pending
uncaught exception, if any. -/
structure HSt where
  heap : Heap
  next : ℕ
  verts : List ℕ
  err : Option String

/-- One iteration of the `get_vertices` loop over the heap: allocate
`A_constraints` and `b_constraints` (fancy indexing copies), solve (allocating
the fresh result `x`), perform the in-place snap write at `x`'s own reference,
then read `A` and `b` through their references for the feasibility check.
A pending exception short-circuits the remaining iterations. -/
def comboStepH (aRef bRef asRef bsRef : ℕ) (n : ℕ) (st : HSt) (combo : List ℕ) : HSt :=
  match st.err with
  | some _ => st
  | none =>
    match asMat (st.heap asRef), asVec (st.heap bsRef) with
    | some Astk, some bstk =>
      match selectRows Astk combo with
      | none => { st with err := some "IndexError: index out of bounds" }
      | some Acon =>
        match selectVec bstk combo with
        | none =>
          { heap := hset st.heap st.next (PyObj.mat Acon), next := st.next + 1,
            verts := st.verts, err := some "IndexError: index out of bounds" }
        | some bcon =>
          match solveLin (Acon.map (List.take n)) bcon with
          | none =>
            { heap := hset (hset st.heap st.next (PyObj.mat Acon)) (st.next + 1)
                (PyObj.vec bcon),
              next := st.next + 2, verts := st.verts, err := none }
          | some x0 =>
            match
              asMat ((hset (hset (hset (hset st.heap st.next (PyObj.mat Acon))
                (st.next + 1) (PyObj.vec bcon)) (st.next + 2) (PyObj.vec x0))
                (st.next + 2) (PyObj.vec (snapZero x0))) aRef),
              asVec ((hset (hset (hset (hset st.heap st.next (PyObj.mat Acon))
                (st.next + 1) (PyObj.vec bcon)) (st.next + 2) (PyObj.vec x0))
                (st.next + 2) (PyObj.vec (snapZero x0))) bRef) with
            | some A, some b =>
              match feasCheck A b (snapZero x0) with
              | Except.ok true =>
                { heap := hset (hset (hset (hset st.heap st.next (PyObj.mat Acon))
                    (st.next + 1) (PyObj.vec bcon)) (st.next + 2) (PyObj.vec x0))
                    (st.next + 2) (PyObj.vec (snapZero x0)),
                  next := st.next + 3, verts := st.verts ++ [st.next + 2], err := none }
              | _ =>
                { heap := hset (hset (hset (hset st.heap st.next (PyObj.mat Acon))
                    (st.next + 1) (PyObj.vec bcon)) (st.next + 2) (PyObj.vec x0))
                    (st.next + 2) (PyObj.vec (snapZero x0)),
                  next := st.next + 3, verts := st.verts, err := none }
            | _, _ =>
              { heap := hset (hset (hset (hset st.heap st.next (PyObj.mat Acon))
                  (st.next + 1) (PyObj.vec bcon)) (st.next + 2) (PyObj.vec x0))
                  (st.next + 2) (PyObj.vec (snapZero x0)),
                next := st.next + 3, verts := st.verts, err := some "NameError" }
    | _, _ => { st with err := some "NameError" }

/-- `get_vertices` over the heap: read `A` and `b`, allocate the stacked
arrays at the first two fresh references, then fold the per-combination step
over every row combination. -/
def get_verticesH (h0 : Heap) (k0 aRef bRef : ℕ) : HSt :=
  match asMat (h0 aRef), asVec (h0 bRef) with
  | some A, some b =>
    List.foldl (comboStepH aRef bRef k0 (k0 + 1) (shape1 A))
      { heap := hset (hset h0 k0 (PyObj.mat (stackA A (shape1 A)))) (k0 + 1)
          (PyObj.vec (stackB b (shape1 A))),
        next := k0 + 2, verts := [], err := none }
      (rowIndexCombinations (shape0 A) (shape1 A))
  | _, _ => { heap := h0, next := k0, verts := [], err := some "NameError" }

/-- The objective-evaluation loop of `LP_exhaustive_search` over the heap: it
reads `c` and the collected vertices but performs no writes. -/
def objLoopH (st : HSt) (cRef : ℕ) : HSt × Except String ℚ :=
  match st.err with
  | some e => (st, Except.error e)
  | none =>
    match asVec (st.heap cRef), mapOption (fun r => asVec (st.heap r)) st.verts with
    | some c, some xs =>
      match mapExcept (fun v => npDot (negVec c) v) xs with
      | Except.error e => (st, Except.error e)
      | Except.ok objs => (st, npMin objs)
    | _, _ => (st, Except.error "NameError")

/-- `LP_exhaustive_search` over the heap. -/
def LP_exhaustive_searchH (h0 : Heap) (k0 aRef bRef cRef : ℕ) :
    HSt × Except String ℚ :=
  objLoopH (get_verticesH h0 k0 aRef bRef) cRef

/-- Heap references below the caller's watermark are never written. -/
def HeapInv (h0 : Heap) (k0 : ℕ) (st : HSt) : Prop :=
  (∀ r, r < k0 → st.heap r = h0 r) ∧ k0 ≤ st.next

/-- A demonstration heap holding `A = [[1]]` at 0, `b = [5]` at 1,
`c = [1]` at 2. -/
def demoHeap : Heap :=
  hset (hset (hset (fun _ => none) 0 (PyObj.mat [[1]])) 1 (PyObj.vec [5])) 2
    (PyObj.vec [1])

/-! ## Structural lemmas about the embedded operations -/

theorem length_combinations (k : ℕ) (l : List α) :
    (combinations k l).length = l.length.choose k := by
  induction l generalizing k with
  | nil => cases k <;> simp [combinations]
  | cons x xs ih =>
    cases k with
    | zero => simp [combinations]
    | succ k =>
      simp [combinations, List.length_append, List.length_map, ih,
        Nat.choose_succ_succ]

theorem mem_combinations_length (k : ℕ) (l : List α) (c : List α)
    (hc : c ∈ combinations k l) : c.length = k := by
  induction l generalizing k c with
  | nil =>
    cases k with
    | zero => simp [combinations] at hc; subst hc; rfl
    | succ k => simp [combinations] at hc
  | cons x xs ih =>
    cases k with
    | zero => simp [combinations] at hc; subst hc; rfl
    | succ k =>
      simp only [combinations, List.mem_append, List.mem_map] at hc
      rcases hc with ⟨a, ha, rfl⟩ | hc
      · simp [ih k a ha]
      · exact ih (k + 1) c hc

theorem mem_combinations_subset (k : ℕ) (l : List α) (c : List α)
    (hc : c ∈ combinations k l) : ∀ a ∈ c, a ∈ l := by
  induction l generalizing k c with
  | nil =>
    cases k with
    | zero => simp [combinations] at hc; subst hc; simp
    | succ k => simp [combinations] at hc
  | cons x xs ih =>
    cases k with
    | zero => simp [combinations] at hc; subst hc; simp
    | succ k =>
      simp only [combinations, List.mem_append, List.mem_map] at hc
      rcases hc with ⟨a, ha, rfl⟩ | hc
      · intro t ht
        rcases List.mem_cons.mp ht with rfl | ht
        · exact List.mem_cons_self _ _
        · exact List.mem_cons_of_mem _ (ih k a ha t ht)
      · exact fun t ht => List.mem_cons_of_mem _ (ih (k + 1) c hc t ht)

theorem mapOption_some_length {f : α → Option β} {l : List α} {ys : List β}
    (h : mapOption f l = some ys) : ys.length = l.length := by
  induction l generalizing ys with
  | nil => simp [mapOption] at h; subst h; rfl
  | cons a l ih =>
    simp only [mapOption] at h
    cases hfa : f a with
    | none => rw [hfa] at h; exact absurd h (by simp)
    | some b =>
      rw [hfa] at h
      cases hml : mapOption f l with
      | none => rw [hml] at h; exact absurd h (by simp)
      | some bs =>
        rw [hml] at h
        cases h
        simp [ih hml]

theorem mapOption_all_some {f : α → Option β} {l : List α}
    (h : ∀ a ∈ l, ∃ b, f a = some b) : ∃ ys, mapOption f l = some ys := by
  induction l with
  | nil => exact ⟨[], rfl⟩
  | cons a l ih =>
    obtain ⟨b, hb⟩ := h a (List.mem_cons_self _ _)
    obtain ⟨ys, hys⟩ := ih fun t ht => h t (List.mem_cons_of_mem _ ht)
    exact ⟨b :: ys, by simp [mapOption, hb, hys]⟩

theorem mapExcept_ok_mem {f : α → Except String β} {l : List α} {ys : List β}
    (h : mapExcept f l = Except.ok ys) : ∀ y ∈ ys, ∃ a ∈ l, f a = Except.ok y := by
  induction l generalizing ys with
  | nil => simp [mapExcept] at h; subst h; simp
  | cons a l ih =>
    simp only [mapExcept] at h
    cases hfa : f a with
    | error e => rw [hfa] at h; exact absurd h (by simp)
    | ok b =>
      rw [hfa] at h
      cases hml : mapExcept f l with
      | error e => rw [hml] at h; exact absurd h (by simp)
      | ok bs =>
        rw [hml] at h
        cases h
        intro y hy
        rcases List.mem_cons.mp hy with rfl | hy
        · exact ⟨a, List.mem_cons_self _ _, hfa⟩
        · obtain ⟨t, ht, hft⟩ := ih hml y hy
          exact ⟨t, List.mem_cons_of_mem _ ht, hft⟩

theorem mapExcept_all_ok {f : α → Except String β} {l : List α}
    (h : ∀ a ∈ l, ∃ b, f a = Except.ok b) : ∃ ys, mapExcept f l = Except.ok ys := by
  induction l with
  | nil => exact ⟨[], rfl⟩
  | cons a l ih =>
    obtain ⟨b, hb⟩ := h a (List.mem_cons_self _ _)
    obtain ⟨ys, hys⟩ := ih fun t ht => h t (List.mem_cons_of_mem _ ht)
    exact ⟨b :: ys, by simp [mapExcept, hb, hys]⟩

theorem mapExcept_eq_map {f : α → Except String β} {g : α → β} {l : List α}
    (h : ∀ a ∈ l, f a = Except.ok (g a)) : mapExcept f l = Except.ok (l.map g) := by
  induction l with
  | nil => rfl
  | cons a l ih =>
    simp [mapExcept, h a (List.mem_cons_self _ _),
      ih fun t ht => h t (List.mem_cons_of_mem _ ht)]

theorem foldl_min_le_init (xs : List ℚ) (a : ℚ) : xs.foldl min a ≤ a := by
  induction xs generalizing a with
  | nil => exact le_refl a
  | cons y ys ih => exact le_trans (ih (min a y)) (min_le_left a y)

theorem foldl_min_mem (xs : List ℚ) (a : ℚ) : xs.foldl min a ∈ a :: xs := by
  induction xs generalizing a with
  | nil => simp
  | cons y ys ih =>
    rw [List.foldl_cons]
    have h := ih (min a y)
    rcases List.mem_cons.mp h with h | h
    · rcases min_cases a y with ⟨heq, _⟩ | ⟨heq, _⟩
      · exact List.mem_cons.mpr (Or.inl (h.trans heq))
      · exact List.mem_cons.mpr
          (Or.inr (List.mem_cons.mpr (Or.inl (h.trans heq))))
    · exact List.mem_cons.mpr (Or.inr (List.mem_cons.mpr (Or.inr h)))

theorem foldl_min_le (xs : List ℚ) :
    ∀ (a y : ℚ), y ∈ a :: xs → xs.foldl min a ≤ y := by
  induction xs with
  | nil =>
    intro a y hy
    simp only [List.mem_singleton] at hy
    simp [hy]
  | cons z zs ih =>
    intro a y hy
    rw [List.foldl_cons]
    rcases List.mem_cons.mp hy with h1 | hy
    · rw [h1]
      exact le_trans (foldl_min_le_init _ _) (min_le_left _ _)
    · rcases List.mem_cons.mp hy with h2 | hy
      · rw [h2]
        exact le_trans (foldl_min_le_init _ _) (min_le_right _ _)
      · exact ih (min a z) y (List.mem_cons_of_mem _ hy)

theorem npMin_spec {l : List ℚ} (hne : l ≠ []) :
    ∃ v, npMin l = Except.ok v ∧ v ∈ l ∧ ∀ y ∈ l, v ≤ y := by
  cases l with
  | nil => exact absurd rfl hne
  | cons x xs =>
    exact ⟨xs.foldl min x, rfl, foldl_min_mem xs x, fun y hy => foldl_min_le xs x y hy⟩

theorem zipWith_all_le {u w : Vec} (hlen : u.length = w.length)
    (h : (List.zipWith (fun a c => decide (a ≤ c)) u w).all id = true) :
    List.Forall₂ (· ≤ ·) u w := by
  induction u generalizing w with
  | nil =>
    cases w with
    | nil => exact List.Forall₂.nil
    | cons c cs => simp at hlen
  | cons a as ih =>
    cases w with
    | nil => simp at hlen
    | cons c cs =>
      simp only [List.zipWith, List.all_cons, Bool.and_eq_true, id_eq,
        decide_eq_true_eq] at h
      exact List.Forall₂.cons h.1 (ih (by simpa using hlen) h.2)

theorem gaussSolve_length {k : ℕ} {rows : List (Vec × ℚ)} {xs : Vec}
    (h : gaussSolve k rows = some xs) : xs.length = k := by
  induction k generalizing rows xs with
  | zero => simp [gaussSolve] at h; subst h; rfl
  | succ k ih =>
    unfold gaussSolve at h
    split at h
    · exact absurd h (by simp)
    · rename_i p rest hp
      split at h
      · exact absurd h (by simp)
      · rename_i ys hg
        injection h with h
        subst h
        simp [ih hg]

theorem solveLin_length {M : Mat} {v : Vec} {x : Vec}
    (h : solveLin M v = some x) : x.length = M.length := by
  unfold solveLin at h
  split at h
  · exact gaussSolve_length h
  · exact absurd h (by simp)

/-! ## Inversion lemmas for the solve-and-check pipeline -/

theorem tryBlock_some {Acon : Mat} {bcon : Vec} {A : Mat} {b : Vec} {n : ℕ} {x : Vec}
    (h : tryBlock Acon bcon A b n = some x) :
    ∃ x0, solveLin (Acon.map (List.take n)) bcon = some x0 ∧ x = snapZero x0 ∧
      feasCheck A b x = Except.ok true := by
  unfold tryBlock at h
  split at h
  · exact absurd h (by simp)
  · rename_i x0 hs
    split at h
    · exact absurd h (by simp)
    · rename_i hf
      injection h with h
      subst h
      exact ⟨x0, hs, rfl, hf⟩
    · exact absurd h (by simp)

theorem processCombo_ok_some {Astk A : Mat} {bstk b : Vec} {n : ℕ} {combo : List ℕ}
    {x : Vec} (h : processCombo Astk bstk A b n combo = Except.ok (some x)) :
    ∃ Acon bcon, selectRows Astk combo = some Acon ∧ selectVec bstk combo = some bcon ∧
      tryBlock Acon bcon A b n = some x := by
  unfold processCombo at h
  split at h
  · exact absurd h (by simp)
  · rename_i Acon hr
    split at h
    · exact absurd h (by simp)
    · rename_i bcon hv
      injection h with h
      exact ⟨Acon, bcon, hr, hv, h⟩

theorem feasCheck_ok_true {A : Mat} {b : Vec} {x : Vec}
    (h : feasCheck A b x = Except.ok true) :
    (x.all fun xi => decide (0 ≤ xi)) = true ∧
      npAllLe (matVec A x) (b.map (· + tolFeas)) = Except.ok true := by
  unfold feasCheck at h
  split at h
  · exact ⟨by assumption, h⟩
  · exact absurd h (by simp)

theorem npAllLe_ok_true_of_length {u w : Vec} (hlen : u.length = w.length)
    (h : npAllLe u w = Except.ok true) : List.Forall₂ (· ≤ ·) u w := by
  unfold npAllLe at h
  rw [if_pos hlen] at h
  exact zipWith_all_le hlen (by exact Except.ok.inj h)

/-- Every vertex produced by `get_vertices` arises from some row combination
whose processing returned it. -/
theorem get_vertices_mem_source {A : Mat} {b : Vec} {vs : List Vec} {x : Vec}
    (hok : get_vertices A b = Except.ok vs) (hx : x ∈ vs) :
    ∃ combo ∈ rowIndexCombinations (shape0 A) (shape1 A),
      processCombo (stackA A (shape1 A)) (stackB b (shape1 A)) A b (shape1 A) combo =
        Except.ok (some x) := by
  unfold get_vertices enumerateCombos at hok
  cases hm : mapExcept
      (processCombo (stackA A (shape1 A)) (stackB b (shape1 A)) A b (shape1 A))
      (rowIndexCombinations (shape0 A) (shape1 A)) with
  | error e => rw [hm] at hok; exact absurd hok (by simp)
  | ok results =>
    rw [hm] at hok
    cases hok
    have hx' : some x ∈ results := by
      rcases List.mem_filterMap.mp hx with ⟨o, ho, hid⟩
      simp only [id_eq] at hid
      exact hid ▸ ho
    obtain ⟨combo, hc, hpc⟩ := mapExcept_ok_mem hm (some x) hx'
    exact ⟨combo, hc, hpc⟩

/-- Unfolding the enumeration loop one combination at a time. -/
theorem enumerateCombos_cons (Astk : Mat) (bstk : Vec) (A : Mat) (b : Vec) (n : ℕ)
    (a : List ℕ) (t : List (List ℕ)) :
    enumerateCombos Astk bstk A b n (a :: t) =
      match processCombo Astk bstk A b n a with
      | Except.error e => Except.error e
      | Except.ok o =>
        match enumerateCombos Astk bstk A b n t with
        | Except.error e => Except.error e
        | Except.ok vs => Except.ok (o.toList ++ vs) := by
  unfold enumerateCombos
  cases hpa : processCombo Astk bstk A b n a with
  | error e => simp [mapExcept, hpa]
  | ok o =>
    cases hmt : mapExcept (processCombo Astk bstk A b n) t with
    | error e => simp [mapExcept, hpa, hmt]
    | ok rs =>
      simp only [mapExcept, hpa, hmt]
      cases o <;> simp

/-- A combination whose processing yields no vertex can be dropped from the
enumeration without changing the outcome: the loop just continues. -/
theorem enumerateCombos_skip {Astk : Mat} {bstk : Vec} {A : Mat} {b : Vec} {n : ℕ}
    {com : List ℕ} (h : processCombo Astk bstk A b n com = Except.ok none)
    (l₁ l₂ : List (List ℕ)) :
    enumerateCombos Astk bstk A b n (l₁ ++ com :: l₂) =
      enumerateCombos Astk bstk A b n (l₁ ++ l₂) := by
  induction l₁ with
  | nil =>
    simp only [List.nil_append]
    rw [enumerateCombos_cons, h]
    cases he : enumerateCombos Astk bstk A b n l₂ <;> simp
  | cons a t ih =>
    simp only [List.cons_append]
    rw [enumerateCombos_cons, enumerateCombos_cons, ih]

/-- Every vertex returned by `get_vertices` has exactly `n` coordinates. -/
theorem get_vertices_vec_length {A : Mat} {b : Vec} {vs : List Vec} {x : Vec}
    (hok : get_vertices A b = Except.ok vs) (hx : x ∈ vs) :
    x.length = shape1 A := by
  obtain ⟨combo, hcombo, hpc⟩ := get_vertices_mem_source hok hx
  obtain ⟨Acon, bcon, hr, hv, ht⟩ := processCombo_ok_some hpc
  obtain ⟨x0, hs, hsnap, _⟩ := tryBlock_some ht
  have h1 : x0.length = (Acon.map (List.take (shape1 A))).length := solveLin_length hs
  have h2 : Acon.length = combo.length := mapOption_some_length hr
  have h3 : combo.length = shape1 A :=
    mem_combinations_length _ _ _ hcombo
  rw [hsnap]
  simp only [snapZero, List.length_map]
  rw [h1]
  simp only [List.length_map]
  rw [h2, h3]

/-! ## Claim theorems -/

/-- C1: on the trivially infeasible problem `A = [[0]]`, `b = [-1]` (a zero row
paired with a negative right-hand side) the enumeration completes with an empty
vertex list, and `LP_exhaustive_search` then crashes with the `ValueError`
raised by `np.min` on an empty array instead of surfacing an explicit
no-solution outcome.  This exhibits the divergence between the claimed
error-handling contract and the code. -/
theorem C1_empty_reduction_crash :
    get_vertices [[0]] [-1] = Except.ok [] ∧
      LP_exhaustive_search [[0]] [-1] [1] =
        Except.error
          "ValueError: zero-size array to reduction operation minimum which has no identity" := by
  constructor
  · with_unfolding_all rfl
  · with_unfolding_all rfl

/-- C3: every vertex in the list returned by `get_vertices A b` is feasible:
each coordinate is at least `-1e-10` (the code in fact enforces `≥ 0`), and the
original constraints hold component-wise as `A·x ≤ b + 1e-10`. -/
theorem C3_vertices_feasible (A : Mat) (b : Vec) (vs : List Vec) (x : Vec)
    (hb : b.length = A.length)
    (hok : get_vertices A b = Except.ok vs) (hx : x ∈ vs) :
    (∀ xi ∈ x, -tolFeas ≤ xi) ∧
      List.Forall₂ (· ≤ ·) (matVec A x) (b.map (· + tolFeas)) := by
  obtain ⟨combo, hcombo, hpc⟩ := get_vertices_mem_source hok hx
  obtain ⟨Acon, bcon, hr, hv, ht⟩ := processCombo_ok_some hpc
  obtain ⟨x0, hs, hsnap, hfeas⟩ := tryBlock_some ht
  obtain ⟨hnn, hle⟩ := feasCheck_ok_true hfeas
  constructor
  · intro xi hxi
    have h0 : (0 : ℚ) ≤ xi := by
      have h1 := List.all_eq_true.mp hnn xi hxi
      simpa using h1
    have h2 : (0 : ℚ) < tolFeas := by norm_num [tolFeas]
    linarith
  · refine npAllLe_ok_true_of_length ?_ hle
    simp [matVec, List.length_map, hb]

/-- C3 witness: on `A = [[1]]`, `b = [5]` the solver returns the vertex list
`[[5], [0]]`, and the feasibility guarantees hold at the vertex `[5]`. -/
theorem C3_witness :
    ([(5 : ℚ)].length = [[(1 : ℚ)]].length ∧
        get_vertices [[1]] [5] = Except.ok [[5], [0]] ∧ [(5 : ℚ)] ∈ [[(5 : ℚ)], [0]]) ∧
      ((∀ xi ∈ [(5 : ℚ)], -tolFeas ≤ xi) ∧
        List.Forall₂ (· ≤ ·) (matVec [[1]] [5]) ([(5 : ℚ)].map (· + tolFeas))) :=
  ⟨⟨by with_unfolding_all rfl, by with_unfolding_all rfl, by with_unfolding_all decide⟩,
    C3_vertices_feasible [[1]] [5] [[5], [0]] [5] (by with_unfolding_all rfl)
      (by with_unfolding_all rfl) (by with_unfolding_all decide)⟩

/-- C4: the enumeration considers exactly `C(m+n, n)` candidate row
combinations (all size-`n` subsets of the `m+n` stacked rows); in particular
for `m = 12`, `n = 10` exactly `646646` combinations are enumerated. -/
theorem C4_combination_count :
    (∀ m n : ℕ, (rowIndexCombinations m n).length = (m + n).choose n) ∧
      (rowIndexCombinations 12 10).length = 646646 := by
  have hgen : ∀ m n : ℕ, (rowIndexCombinations m n).length = (m + n).choose n := by
    intro m n
    unfold rowIndexCombinations
    rw [length_combinations]
    simp
  refine ⟨hgen, ?_⟩
  rw [hgen]
  decide

/-- C5: whenever at least one feasible vertex survives enumeration,
`LP_exhaustive_search` returns the minimum over the feasible vertices of
`-c·x`, the sign-flipped (minimize-form) objective. -/
theorem C5_returns_min_objective (A : Mat) (b c : Vec) (vs : List Vec)
    (hc : c.length = shape1 A)
    (hok : get_vertices A b = Except.ok vs) (hne : vs ≠ []) :
    ∃ x ∈ vs, LP_exhaustive_search A b c = Except.ok (dotQ (negVec c) x) ∧
      ∀ y ∈ vs, dotQ (negVec c) x ≤ dotQ (negVec c) y := by
  have hmap : mapExcept (fun v => npDot (negVec c) v) vs =
      Except.ok (vs.map fun v => dotQ (negVec c) v) := by
    refine mapExcept_eq_map ?_
    intro v hv
    unfold npDot
    rw [if_pos]
    simp [negVec, hc, get_vertices_vec_length hok hv]
  have hne' : (vs.map fun v => dotQ (negVec c) v) ≠ [] := by
    simpa using hne
  obtain ⟨w, hwmin, hwmem, hwle⟩ := npMin_spec hne'
  obtain ⟨x, hx, hxw⟩ := List.mem_map.mp hwmem
  refine ⟨x, hx, ?_, ?_⟩
  · unfold LP_exhaustive_search
    rw [hok]
    show (match mapExcept (fun v => npDot (negVec c) v) vs with
      | Except.error e => Except.error e
      | Except.ok objective_values => npMin objective_values) = _
    rw [hmap]
    show npMin (vs.map fun v => dotQ (negVec c) v) = _
    rw [hwmin, hxw]
  · intro y hy
    have hyw := hwle _ (List.mem_map_of_mem _ hy)
    rw [hxw]
    exact hyw

/-- C5 witness: on `A = [[1]]`, `b = [5]`, `c = [1]` the vertex list is
`[[5], [0]]` and the returned value is the minimum objective `-5`. -/
theorem C5_witness :
    ([(1 : ℚ)].length = shape1 [[(1 : ℚ)]] ∧
        get_vertices [[1]] [5] = Except.ok [[5], [0]] ∧ ([[(5 : ℚ)], [0]] : List Vec) ≠ []) ∧
      (∃ x ∈ ([[(5 : ℚ)], [0]] : List Vec),
        LP_exhaustive_search [[1]] [5] [1] = Except.ok (dotQ (negVec [1]) x) ∧
          ∀ y ∈ ([[(5 : ℚ)], [0]] : List Vec),
            dotQ (negVec [1]) x ≤ dotQ (negVec [1]) y) :=
  ⟨⟨by with_unfolding_all rfl, by with_unfolding_all rfl, by with_unfolding_all decide⟩,
    C5_returns_min_objective [[1]] [5] [1] [[5], [0]] (by with_unfolding_all rfl)
      (by with_unfolding_all rfl) (by with_unfolding_all decide)⟩

/-- C6: a combination of rows whose n×n submatrix is singular is discarded and
the enumeration continues with the remaining combinations — it contributes no
vertex, raises nothing to the caller, and the overall result equals the
enumeration over the remaining combinations. -/
theorem C6_singular_skipped (A : Mat) (b : Vec) (com : List ℕ) (Acon : Mat)
    (bcon : Vec) (l₁ l₂ : List (List ℕ))
    (hsel : selectRows (stackA A (shape1 A)) com = some Acon)
    (hselb : selectVec (stackB b (shape1 A)) com = some bcon)
    (hsing : solveLin (Acon.map (List.take (shape1 A))) bcon = none) :
    processCombo (stackA A (shape1 A)) (stackB b (shape1 A)) A b (shape1 A) com =
        Except.ok none ∧
      enumerateCombos (stackA A (shape1 A)) (stackB b (shape1 A)) A b (shape1 A)
          (l₁ ++ com :: l₂) =
        enumerateCombos (stackA A (shape1 A)) (stackB b (shape1 A)) A b (shape1 A)
          (l₁ ++ l₂) ∧
      (rowIndexCombinations (shape0 A) (shape1 A) = l₁ ++ com :: l₂ →
        get_vertices A b =
          enumerateCombos (stackA A (shape1 A)) (stackB b (shape1 A)) A b (shape1 A)
            (l₁ ++ l₂)) := by
  have hpc : processCombo (stackA A (shape1 A)) (stackB b (shape1 A)) A b (shape1 A) com =
      Except.ok none := by
    simp only [processCombo, hsel, hselb, tryBlock, hsing]
  refine ⟨hpc, enumerateCombos_skip hpc l₁ l₂, ?_⟩
  intro heq
  unfold get_vertices
  rw [heq]
  exact enumerateCombos_skip hpc l₁ l₂

/-- C6 witness: on `A = [[0]]`, `b = [0]` the combination `[0]` selects the
singular 1×1 submatrix `[[0]]`; it is skipped, and the enumeration over
`[[0], [1]]` equals the enumeration over the remaining `[[1]]`. -/
theorem C6_witness :
    (selectRows (stackA [[(0 : ℚ)]] (shape1 [[(0 : ℚ)]])) [0] = some [[0]] ∧
        selectVec (stackB [(0 : ℚ)] (shape1 [[(0 : ℚ)]])) [0] = some [0] ∧
        solveLin ([[(0 : ℚ)]].map (List.take (shape1 [[(0 : ℚ)]]))) [0] = none) ∧
      (processCombo (stackA [[(0 : ℚ)]] (shape1 [[(0 : ℚ)]]))
            (stackB [(0 : ℚ)] (shape1 [[(0 : ℚ)]])) [[0]] [0] (shape1 [[(0 : ℚ)]]) [0] =
          Except.ok none ∧
        enumerateCombos (stackA [[(0 : ℚ)]] (shape1 [[(0 : ℚ)]]))
            (stackB [(0 : ℚ)] (shape1 [[(0 : ℚ)]])) [[0]] [0] (shape1 [[(0 : ℚ)]])
            ([] ++ [0] :: [[1]]) =
          enumerateCombos (stackA [[(0 : ℚ)]] (shape1 [[(0 : ℚ)]]))
            (stackB [(0 : ℚ)] (shape1 [[(0 : ℚ)]])) [[0]] [0] (shape1 [[(0 : ℚ)]])
            ([] ++ [[1]]) ∧
        (rowIndexCombinations (shape0 [[(0 : ℚ)]]) (shape1 [[(0 : ℚ)]]) =
            [] ++ [0] :: [[1]] →
          get_vertices [[0]] [0] =
            enumerateCombos (stackA [[(0 : ℚ)]] (shape1 [[(0 : ℚ)]]))
              (stackB [(0 : ℚ)] (shape1 [[(0 : ℚ)]])) [[0]] [0] (shape1 [[(0 : ℚ)]])
              ([] ++ [[1]]))) :=
  ⟨⟨by with_unfolding_all rfl, by with_unfolding_all rfl, by with_unfolding_all rfl⟩,
    C6_singular_skipped [[0]] [0] [0] [[0]] [0] [] [[1]] (by with_unfolding_all rfl)
      (by with_unfolding_all rfl) (by with_unfolding_all rfl)⟩

/-- C7 counterexample: the malformed input `A = [[1]]`, `b = [2, 3]`,
`c = [1]` has `len(b) = 2 ≠ m = 1`, yet the solver does not fail fast with a
dimension diagnostic: it runs the enumeration on the mismatched arrays and
returns the ordinary numeric result `-2`. -/
theorem C7_counterexample :
    isOkE (LP_exhaustive_search [[1]] [2, 3] [1]) = true ∧
      LP_exhaustive_search [[1]] [2, 3] [1] = Except.ok (-2) := by
  constructor
  · with_unfolding_all rfl
  · with_unfolding_all rfl

/-- C7 amended: no dimension validation is performed.  Whenever
`len(b) ≥ m`, `get_vertices` runs the full enumeration on the mismatched
arrays and returns an ordinary vertex list — it never fails, fast or
otherwise, and emits no diagnostic. -/
theorem C7_no_dimension_check (A : Mat) (b : Vec) (h : A.length ≤ b.length) :
    ∃ vs, get_vertices A b = Except.ok vs := by
  have hall : ∀ com ∈ rowIndexCombinations (shape0 A) (shape1 A),
      ∃ o, processCombo (stackA A (shape1 A)) (stackB b (shape1 A)) A b (shape1 A) com =
        Except.ok o := by
    intro com hcom
    have hmem : ∀ i ∈ com, i < shape0 A + shape1 A := by
      intro i hi
      have hr := mem_combinations_subset _ _ _ hcom i hi
      simpa [List.mem_range] using hr
    have hlenA : (stackA A (shape1 A)).length = shape0 A + shape1 A := by
      simp [stackA, eyeQ, shape0]
    have hlenB : shape0 A + shape1 A ≤ (stackB b (shape1 A)).length := by
      simp only [stackB, zerosQ, List.length_append, List.length_replicate, shape0]
      omega
    obtain ⟨Acon, hAcon⟩ :=
      mapOption_all_some (f := fun i => (stackA A (shape1 A)).get? i) (l := com)
        (fun i hi => ⟨_, List.get?_eq_get (by rw [hlenA]; exact hmem i hi)⟩)
    obtain ⟨bcon, hbcon⟩ :=
      mapOption_all_some (f := fun i => (stackB b (shape1 A)).get? i) (l := com)
        (fun i hi => ⟨_, List.get?_eq_get (lt_of_lt_of_le (hmem i hi) hlenB)⟩)
    exact ⟨tryBlock Acon bcon A b (shape1 A), by
      simp only [processCombo, selectRows, selectVec, hAcon, hbcon]⟩
  obtain ⟨rs, hrs⟩ := mapExcept_all_ok hall
  refine ⟨rs.filterMap id, ?_⟩
  unfold get_vertices enumerateCombos
  rw [hrs]

/-- C7 amended witness: at the counterexample input itself (`len(b) = 2 > m = 1`)
the amended statement applies and enumeration completes without any failure. -/
theorem C7_witness :
    ([[(1 : ℚ)]].length ≤ [(2 : ℚ), 3].length) ∧
      ∃ vs, get_vertices [[1]] [2, 3] = Except.ok vs :=
  ⟨by decide, C7_no_dimension_check [[1]] [2, 3] (by decide)⟩

/-- C8: the solver is deterministic — two invocations on (syntactically) the
same input arrays return the same result; the embedding is a pure function of
`(A, b, c)` and the tolerances. -/
theorem C8_deterministic (A A' : Mat) (b b' c c' : Vec)
    (hA : A = A') (hb : b = b') (hc : c = c') :
    LP_exhaustive_search A b c = LP_exhaustive_search A' b' c' := by
  rw [hA, hb, hc]

/-- C8 witness: two invocations on the same concrete problem agree. -/
theorem C8_witness :
    (([[(1 : ℚ), 1], [1, 0]] : Mat) = [[1, 1], [1, 0]] ∧ ([(4 : ℚ), 2] : Vec) = [4, 2] ∧
        ([(3 : ℚ), 2] : Vec) = [3, 2]) ∧
      LP_exhaustive_search [[1, 1], [1, 0]] [4, 2] [3, 2] =
        LP_exhaustive_search [[1, 1], [1, 0]] [4, 2] [3, 2] :=
  ⟨⟨rfl, rfl, rfl⟩,
    C8_deterministic [[1, 1], [1, 0]] [[1, 1], [1, 0]] [4, 2] [4, 2] [3, 2] [3, 2]
      rfl rfl rfl⟩

/-- C9: the bare `except:` around the solve-and-check block suppresses every
exception raised inside it — whenever the (outside-`try`) fancy-indexing
selections succeed, `processCombo` returns `Except.ok` of whatever the block
produced, never an error; and a combination whose block failed (yielding no
vertex) is silently dropped while the enumeration continues over the rest. -/
theorem C9_broad_except_suppression (Astk A : Mat) (bstk b : Vec) (n : ℕ)
    (com : List ℕ) (Acon : Mat) (bcon : Vec) (l₁ l₂ : List (List ℕ))
    (hsel : selectRows Astk com = some Acon)
    (hselb : selectVec bstk com = some bcon) :
    processCombo Astk bstk A b n com = Except.ok (tryBlock Acon bcon A b n) ∧
      (tryBlock Acon bcon A b n = none →
        enumerateCombos Astk bstk A b n (l₁ ++ com :: l₂) =
          enumerateCombos Astk bstk A b n (l₁ ++ l₂)) := by
  have hpc : processCombo Astk bstk A b n com = Except.ok (tryBlock Acon bcon A b n) := by
    simp only [processCombo, hsel, hselb]
  exact ⟨hpc, fun hnone => enumerateCombos_skip (by rw [hpc, hnone]) l₁ l₂⟩

/-- C9 witness: with `A` a 3×1 matrix and `b` of length 2, the feasibility
check `(A @ x) <= (b + 1e-10)` raises a broadcast `ValueError` inside the
`try:` block; the exception is swallowed, the combination contributes nothing,
and enumeration over `[[0]]` equals enumeration over `[]`. -/
theorem C9_witness :
    (selectRows (stackA [[(1 : ℚ)], [1], [1]] 1) [0] = some [[1]] ∧
        selectVec (stackB [(2 : ℚ), 3] 1) [0] = some [2] ∧
        tryBlock [[(1 : ℚ)]] [2] [[1], [1], [1]] [2, 3] 1 = none) ∧
      (processCombo (stackA [[(1 : ℚ)], [1], [1]] 1) (stackB [(2 : ℚ), 3] 1)
            [[1], [1], [1]] [2, 3] 1 [0] = Except.ok none ∧
        enumerateCombos (stackA [[(1 : ℚ)], [1], [1]] 1) (stackB [(2 : ℚ), 3] 1)
            [[1], [1], [1]] [2, 3] 1 [[0]] =
          enumerateCombos (stackA [[(1 : ℚ)], [1], [1]] 1) (stackB [(2 : ℚ), 3] 1)
            [[1], [1], [1]] [2, 3] 1 []) := by
  have h := C9_broad_except_suppression (stackA [[(1 : ℚ)], [1], [1]] 1)
    [[1], [1], [1]] (stackB [(2 : ℚ), 3] 1) [2, 3] 1 [0] [[1]] [2] [] []
    (by with_unfolding_all rfl) (by with_unfolding_all rfl)
  refine ⟨⟨by with_unfolding_all rfl, by with_unfolding_all rfl, by with_unfolding_all rfl⟩,
    ?_, ?_⟩
  · rw [h.1]
    with_unfolding_all rfl
  · exact h.2 (by with_unfolding_all rfl)

theorem hset_lt {h : Heap} {r t : ℕ} {o : PyObj} (hr : r < t) :
    hset h t o r = h r := by
  unfold hset
  rw [if_neg (by omega)]

theorem comboStepH_inv (aRef bRef asRef bsRef n : ℕ) (com : List ℕ)
    {h0 : Heap} {k0 : ℕ} {st : HSt} (hP : HeapInv h0 k0 st) :
    HeapInv h0 k0 (comboStepH aRef bRef asRef bsRef n st com) := by
  obtain ⟨hheap, hnext⟩ := hP
  unfold comboStepH
  split
  · exact ⟨hheap, hnext⟩
  · split
    · split
      · exact ⟨hheap, hnext⟩
      · split
        · refine ⟨fun r hr => ?_, by dsimp only; omega⟩
          show hset st.heap st.next _ r = h0 r
          rw [hset_lt (by omega)]
          exact hheap r hr
        · split
          · refine ⟨fun r hr => ?_, by dsimp only; omega⟩
            show hset (hset st.heap st.next _) (st.next + 1) _ r = h0 r
            rw [hset_lt (by omega), hset_lt (by omega)]
            exact hheap r hr
          · split
            · split
              · refine ⟨fun r hr => ?_, by dsimp only; omega⟩
                show hset (hset (hset (hset st.heap st.next _) (st.next + 1) _)
                  (st.next + 2) _) (st.next + 2) _ r = h0 r
                rw [hset_lt (by omega), hset_lt (by omega), hset_lt (by omega),
                  hset_lt (by omega)]
                exact hheap r hr
              · refine ⟨fun r hr => ?_, by dsimp only; omega⟩
                show hset (hset (hset (hset st.heap st.next _) (st.next + 1) _)
                  (st.next + 2) _) (st.next + 2) _ r = h0 r
                rw [hset_lt (by omega), hset_lt (by omega), hset_lt (by omega),
                  hset_lt (by omega)]
                exact hheap r hr
            · refine ⟨fun r hr => ?_, by dsimp only; omega⟩
              show hset (hset (hset (hset st.heap st.next _) (st.next + 1) _)
                (st.next + 2) _) (st.next + 2) _ r = h0 r
              rw [hset_lt (by omega), hset_lt (by omega), hset_lt (by omega),
                hset_lt (by omega)]
              exact hheap r hr
    · exact ⟨hheap, hnext⟩

theorem foldl_comboStepH_inv (aRef bRef asRef bsRef n : ℕ) (combos : List (List ℕ))
    {h0 : Heap} {k0 : ℕ} {st : HSt} (hP : HeapInv h0 k0 st) :
    HeapInv h0 k0 (List.foldl (comboStepH aRef bRef asRef bsRef n) st combos) := by
  induction combos generalizing st with
  | nil => exact hP
  | cons com rest ih =>
    exact ih (comboStepH_inv aRef bRef asRef bsRef n com hP)

theorem get_verticesH_frame (h0 : Heap) (k0 aRef bRef : ℕ) :
    ∀ r, r < k0 → (get_verticesH h0 k0 aRef bRef).heap r = h0 r := by
  intro r hr
  unfold get_verticesH
  split
  · refine (foldl_comboStepH_inv _ _ _ _ _ _ ⟨fun r hr => ?_, by dsimp only; omega⟩).1 r hr
    show hset (hset h0 k0 _) (k0 + 1) _ r = h0 r
    rw [hset_lt (by omega), hset_lt (by omega)]
  · rfl

theorem objLoopH_fst (st : HSt) (cRef : ℕ) : (objLoopH st cRef).1 = st := by
  unfold objLoopH
  split
  · rfl
  · split
    · split <;> rfl
    · rfl

/-- C10: `get_vertices` and `LP_exhaustive_search` leave the caller's arrays
`A`, `b`, `c` unchanged.  In the store-passing model every allocation — the
stacked arrays, the per-combination fancy-indexing copies, the solved point —
happens at a fresh reference at or above the watermark `k0`, and the in-place
snap-to-zero write targets the freshly solved point's own reference, so every
caller reference below `k0` still holds its original object afterwards. -/
theorem C10_inputs_unchanged (h0 : Heap) (k0 aRef bRef cRef : ℕ)
    (ha : aRef < k0) (hb : bRef < k0) (hc : cRef < k0) :
    (get_verticesH h0 k0 aRef bRef).heap aRef = h0 aRef ∧
      (get_verticesH h0 k0 aRef bRef).heap bRef = h0 bRef ∧
      (LP_exhaustive_searchH h0 k0 aRef bRef cRef).1.heap aRef = h0 aRef ∧
      (LP_exhaustive_searchH h0 k0 aRef bRef cRef).1.heap bRef = h0 bRef ∧
      (LP_exhaustive_searchH h0 k0 aRef bRef cRef).1.heap cRef = h0 cRef := by
  have hL : (LP_exhaustive_searchH h0 k0 aRef bRef cRef).1 =
      get_verticesH h0 k0 aRef bRef := by
    unfold LP_exhaustive_searchH
    exact objLoopH_fst _ _
  refine ⟨get_verticesH_frame h0 k0 aRef bRef aRef ha,
    get_verticesH_frame h0 k0 aRef bRef bRef hb, ?_, ?_, ?_⟩ <;> rw [hL]
  · exact get_verticesH_frame h0 k0 aRef bRef aRef ha
  · exact get_verticesH_frame h0 k0 aRef bRef bRef hb
  · exact get_verticesH_frame h0 k0 aRef bRef cRef hc

/-- C10 witness: on the demonstration heap (inputs at references 0, 1, 2 and
watermark 3) the solver runs and the three input arrays are untouched. -/
theorem C10_witness :
    (0 < 3 ∧ 1 < 3 ∧ 2 < 3) ∧
      ((get_verticesH demoHeap 3 0 1).heap 0 = demoHeap 0 ∧
        (get_verticesH demoHeap 3 0 1).heap 1 = demoHeap 1 ∧
        (LP_exhaustive_searchH demoHeap 3 0 1 2).1.heap 0 = demoHeap 0 ∧
        (LP_exhaustive_searchH demoHeap 3 0 1 2).1.heap 1 = demoHeap 1 ∧
        (LP_exhaustive_searchH demoHeap 3 0 1 2).1.heap 2 = demoHeap 2) :=
  ⟨⟨by decide, by decide, by decide⟩,
    C10_inputs_unchanged demoHeap 3 0 1 2 (by decide) (by decide) (by decide)⟩

end LPPort
